import Mathlib

/-!
# HAKES: the index-coordination object `faiss::HakesIndex` and `ocall_print_time`

A shallow embedding of

* `src/search-worker/index/ext/HakesIndex.h`: the data members of `HakesIndex`, its
  constructor, its destructor and `DeleteWithIds`;
* `src/embed-worker/inference-runtime/tflm/src/untrusted/ocalls.cpp`: `ocall_print_time`.

Conventions.

* A raw pointer is its address, a natural number; `nullptr` is address `0`.
* A `std::unique_ptr<T>` is an `Option` of the object it owns (`none` is the empty handle).
* `delete p` on `nullptr` has no effect; on another address it destroys the object there.
  The destructor is embedded as the sequence of `delete` expressions it evaluates.
* Dereferencing an empty handle and reading past the end of an array are undefined in C++;
  the embedding returns `none` there.
* `pthread_rwlock_t mapping_mu_` carries no data and is left out (locking is not modelled).
* The payload types `IndexIVFPQFastScanL`, `IDMap` and `IndexFlatL` are declared in headers
  that are not among the sources; they are type parameters `B`, `M` and `R`.
-/

set_option autoImplicit false

/-! ## Pointers and identifiers -/

/-- A raw pointer, by address. -/
abbrev Ptr := Nat

/-- The null pointer. -/
abbrev nullptr : Ptr := 0

/-- The identifier type `faiss::idx_t` (a signed 64-bit integer; only equality of
identifiers is used, so no wrap-around arises). -/
abbrev idx_t := Int

/-! ## The deletion checker -/

/-- Modelled from the spec: the class `TagChecker<idx_t>` of
`search-worker/index/ext/TagChecker.h`, which is not among the sources. The spec's
Deletion Checker is "a set of externally-tagged ids considered logically deleted". -/
structure TagChecker where
  /-- The ids marked deleted. -/
  marked : Finset idx_t
deriving DecidableEq

/-- Modelled from the spec: the constructor `TagChecker<idx_t>()`, which is not among the
sources; "entities are created empty at construction". -/
def TagChecker.new : TagChecker := ⟨∅⟩

/-- Modelled from the spec: `TagChecker::set(n, ids)`, which is not among the sources;
it "adds `n` external ids to the Deletion Checker". The ids read are `ids[0]`, ...,
`ids[n-1]` (none when `n ≤ 0`); an array shorter than `n` is read past its end. -/
def TagChecker.set (c : TagChecker) (n : Int) (ids : List idx_t) : Option TagChecker :=
  if n ≤ (ids.length : Int) then
    some ⟨(ids.take n.toNat).foldl (fun acc i => insert i acc) c.marked⟩
  else
    none

/-- Modelled from the spec: the membership test of the Deletion Checker ("any id present in
the Deletion Checker"). -/
def TagChecker.check (c : TagChecker) (id : idx_t) : Bool :=
  decide (id ∈ c.marked)

/-! ## The index object -/

/-- The data members of `HakesIndex` (HakesIndex.h, lines 106-125), in declaration order,
without the lock `mapping_mu_`. -/
structure HakesIndex (B M R : Type) where
  index_path_ : String
  mode : Int
  use_ivf_sq_ : Bool
  use_refine_sq_ : Bool
  vts_ : List Ptr
  has_q_index_ : Bool
  q_vts_ : List Ptr
  cq_ : Ptr
  q_cq_ : Ptr
  q_quantizer_ : Ptr
  base_index_ : Option B
  mapping_ : Option M
  refine_index_ : Option R
  keep_pa_ : Bool
  pa_mapping_ : List (idx_t × idx_t)
  del_checker_ : Option TagChecker
deriving DecidableEq

/-- The constructor `HakesIndex()` (lines 31-34): every member takes its default member
initialiser (an empty string, vector, map or handle where none is written), then
`del_checker_.reset(new TagChecker<idx_t>())`. -/
def HakesIndex.construct (B M R : Type) : HakesIndex B M R :=
  { index_path_ := ""
    mode := 0
    use_ivf_sq_ := false
    use_refine_sq_ := false
    vts_ := []
    has_q_index_ := false
    q_vts_ := []
    cq_ := nullptr
    q_cq_ := nullptr
    q_quantizer_ := nullptr
    base_index_ := none
    mapping_ := none
    refine_index_ := none
    keep_pa_ := false
    pa_mapping_ := []
    del_checker_ := some TagChecker.new }

/-- The member `DeleteWithIds(n, ids)` (lines 97-100):
`del_checker_->set(n, ids); return true;`. The result is the returned flag and the object
after the call. -/
def HakesIndex.DeleteWithIds {B M R : Type} (s : HakesIndex B M R) (n : Int)
    (ids : List idx_t) : Option (Bool × HakesIndex B M R) :=
  match s.del_checker_ with
  | none => none
  | some c =>
    match c.set n ids with
    | none => none
    | some c2 => some (true, { s with del_checker_ := some c2 })

/-! ## The destructor -/

/-- The `delete` expressions of the destructor, by the member they name. -/
inductive DeleteSite where
  | vts
  | q_vts
  | cq
  | q_cq
  | q_quantizer
deriving DecidableEq

/-- One evaluated `delete` expression: the member named and the address passed. -/
structure DeleteCall where
  site : DeleteSite
  ptr : Ptr
deriving DecidableEq

/-- The body of the destructor `~HakesIndex()` (lines 35-55): the `delete` expressions it
evaluates, in order, and the members as the body leaves them. The loop variable `vt` of
`for (auto vt : vts_)` is a copy, so `vt = nullptr` leaves `vts_` as it was. The implicit
destruction of the members that follows the body (the `unique_ptr` handles among them) is
not part of it. -/
def HakesIndex.destruct {B M R : Type} (s : HakesIndex B M R) :
    List DeleteCall × HakesIndex B M R :=
  let t1 : List DeleteCall := s.vts_.map (fun vt => ⟨DeleteSite.vts, vt⟩)
  let t2 : List DeleteCall := s.q_vts_.map (fun vt => ⟨DeleteSite.q_vts, vt⟩)
  let r3 : List DeleteCall × HakesIndex B M R :=
    if s.use_ivf_sq_ = true then
      ([⟨DeleteSite.cq, s.cq_⟩], { s with cq_ := nullptr })
    else
      ([], s)
  let s3 := r3.2
  let r4 : List DeleteCall × HakesIndex B M R :=
    if s3.q_cq_ ≠ nullptr then
      ([⟨DeleteSite.q_cq, s3.q_cq_⟩, ⟨DeleteSite.q_quantizer, s3.q_quantizer_⟩],
        { s3 with q_cq_ := nullptr, q_quantizer_ := nullptr })
    else
      ([], s3)
  (t1 ++ t2 ++ r3.1 ++ r4.1, r4.2)

/-- The addresses whose objects a sequence of `delete` expressions destroys, in order and
with repetition: `delete nullptr` destroys nothing. -/
def released (calls : List DeleteCall) : List Ptr :=
  (calls.map (fun c => c.ptr)).filter (fun p => p ≠ nullptr)

/-- The owned raw pointers of an index, after the words of the spec: each element of the
base transform chain, each element of the query transform chain, the primary coarse
quantizer when in scalar-quantized mode, and the secondary coarse quantizer and its paired
quantizer when present (non-null). Null entries own nothing and are dropped. -/
def HakesIndex.ownedPtrs {B M R : Type} (s : HakesIndex B M R) : List Ptr :=
  (s.vts_ ++ s.q_vts_ ++ (if s.use_ivf_sq_ = true then [s.cq_] else [])
    ++ [s.q_cq_, s.q_quantizer_]).filter (fun p => p ≠ nullptr)

/-- The secondary-pair invariant: `q_cq_` and `q_quantizer_` are both null or both
non-null. -/
def HakesIndex.pairInv {B M R : Type} (s : HakesIndex B M R) : Prop :=
  s.q_cq_ = nullptr ↔ s.q_quantizer_ = nullptr

instance HakesIndex.pairInvDecidable {B M R : Type} (s : HakesIndex B M R) :
    Decidable s.pairInv := by
  unfold HakesIndex.pairInv
  exact inferInstance

/-- The object `t` is the object `s` after zero or more further `DeleteWithIds` calls. -/
inductive HakesIndex.DeletesTo {B M R : Type} :
    HakesIndex B M R → HakesIndex B M R → Prop where
  | refl (s : HakesIndex B M R) : HakesIndex.DeletesTo s s
  | step {s t u : HakesIndex B M R} {n : Int} {ids : List idx_t} {r : Bool} :
      HakesIndex.DeletesTo s t → t.DeleteWithIds n ids = some (r, u) →
      HakesIndex.DeletesTo s u

/-! ## Search and Rerank -/

/-- Modelled from the spec: the type `HakesSearchParams`, declared in
`search-worker/index/ext/HakesCollection.h`, which is not among the sources: "a
configuration value carrying the recognized options (resultCount k, probe breadth, metric
kind, quantized-query-path toggle)". -/
structure HakesSearchParams where
  k : Int
  probe_breadth : Int
  metric : Int
  quantized_query : Bool
deriving DecidableEq

/-- Modelled from the spec: the external collaborators that Search and Rerank call (the
numeric kernels of the Approximate Index, the Id Mapping and the Refine Index, none of
them among the sources), which the spec treats as opaque capability-bearing
components; they are parameters. `Q` is the type of one query vector and `D` the type of a
distance. -/
structure Kernels (B M R Q D : Type) where
  /-- The input dimension the Approximate Index is configured with. -/
  dim : B → Int
  /-- The query transform chain, the optional secondary quantized-query path and the probe
  of the Approximate Index: the candidates of one query, best first, each an approximate
  distance and an internal position. -/
  probe : B → List Ptr → Bool → Q → HakesSearchParams → List (D × Int)
  /-- The Id Mapping, from an internal position to the external id. -/
  external : M → Int → Option idx_t
  /-- The exact distance of a query to the full-precision vector the Refine Index stores
  under a label, if it stores one. -/
  exact : R → Q → idx_t → Option D
  /-- The order of distances. -/
  le : D → D → Bool

/-- Modelled from the spec: `HakesIndex::Search`, declared at lines 82-84 of HakesIndex.h
with its body in a file that is not among the sources. Section 4.6: for each query, probe
the Approximate Index according to `params`, "translate internal positions to external
ids via the Id Mapping", "filter out any id present in the Deletion Checker, re-filling
from further candidates as needed so that k live results are returned whenever k live
candidates exist"; "fails on dimension mismatch or if the Index has not been
initialized/built". The result holds, per query, the distances and labels returned. -/
def HakesIndex.Search {B M R Q D : Type} (K : Kernels B M R Q D) (s : HakesIndex B M R)
    (d : Int) (query : List Q) (params : HakesSearchParams) :
    Option (List (List (D × idx_t))) :=
  match s.base_index_, s.mapping_, s.del_checker_ with
  | some b, some m, some c =>
    if d ≠ K.dim b then none
    else
      some (query.map (fun q =>
        (((K.probe b s.q_vts_ (s.has_q_index_ && params.quantized_query) q params).filterMap
            (fun e => (K.external m e.2).map (fun id => (e.1, id)))).filter
            (fun e => !c.check e.2)).take params.k.toNat))
  | _, _, _ => none

/-- Modelled from the spec: `HakesIndex::Rerank`, declared at lines 86-89 of HakesIndex.h
with its body in a file that is not among the sources. Section 4.7: given per query a
list of candidate (label, approximate distance) pairs, it "recomputes exact distances
against the Refine Index's full-precision vectors for exactly those candidate labels, and
returns the top-k by exact distance"; it "fails if any candidate label has no
corresponding entry in the Refine Index". Section 3: the Deletion Checker is "checked
during Search to exclude results and conceptually during Rerank", so candidates marked
deleted are left out. -/
def HakesIndex.Rerank {B M R Q D : Type} (K : Kernels B M R Q D) (s : HakesIndex B M R)
    (query : List Q) (k : Int) (base : List (List (idx_t × D))) :
    Option (List (List (D × idx_t))) :=
  match s.refine_index_, s.del_checker_ with
  | some r, some c =>
    if query.length ≠ base.length then none
    else if (List.zip query base).all
        (fun qc => qc.2.all (fun e => (K.exact r qc.1 e.1).isSome)) = false then none
    else
      some ((List.zip query base).map (fun qc =>
        (((qc.2.filter (fun e => !c.check e.1)).filterMap
            (fun e => (K.exact r qc.1 e.1).map (fun x => (x, e.1)))).insertionSort
            (fun a b => K.le a.1 b.1 = true)).take k.toNat))
  | _, _ => none

/-! ## The timing call -/

/-- The clock reading `struct timeval` of `sys/time.h`, as `gettimeofday` fills it:
seconds and microseconds, both signed. -/
structure timeval where
  tv_sec : Int
  tv_usec : Int
deriving DecidableEq

/-- The conversion `(unsigned long long) x` of a signed integer: reduction modulo `2^64`. -/
def toULL (x : Int) : Nat :=
  (x % (2 : Int) ^ 64).toNat

/-- The argument `ocall_print_time` passes to `printf` (ocalls.cpp, lines 30-31):
`(unsigned long long)t.tv_sec * 1000 * 1000 + (unsigned long long)t.tv_usec`, each
operation in unsigned 64-bit arithmetic. -/
def ocall_print_time_arg (t : timeval) : Nat :=
  ((toULL t.tv_sec * 1000 % 2 ^ 64) * 1000 % 2 ^ 64 + toULL t.tv_usec) % 2 ^ 64

/-- The text `ocall_print_time` prints (ocalls.cpp, lines 26-32) when `gettimeofday`
gives the reading `t`: the format `"timing since start: %llu\n"`. -/
def ocall_print_time (t : timeval) : String :=
  "timing since start: " ++ Nat.repr (ocall_print_time_arg t) ++ "\n"

/-- A clock reading strictly later than another. -/
def timeval.later (t1 t2 : timeval) : Prop :=
  t1.tv_sec < t2.tv_sec ∨ (t1.tv_sec = t2.tv_sec ∧ t1.tv_usec < t2.tv_usec)

/-! ## Concrete objects -/

/-- A built index for concrete evaluation: two base transforms, one query transform, an
owned primary coarse quantizer, a secondary pair, and ids 4 and 9 already deleted. -/
def builtIndex : HakesIndex Unit Unit Unit :=
  { index_path_ := "ckpt"
    mode := 0
    use_ivf_sq_ := true
    use_refine_sq_ := false
    vts_ := [11, 12]
    has_q_index_ := true
    q_vts_ := [21]
    cq_ := 31
    q_cq_ := 41
    q_quantizer_ := 42
    base_index_ := some ()
    mapping_ := some ()
    refine_index_ := some ()
    keep_pa_ := true
    pa_mapping_ := [(4, 0), (5, 1)]
    del_checker_ := some ⟨{4, 9}⟩ }

/-- Kernels for concrete evaluation, over one-point payloads and natural-number
distances: four candidates per query at internal positions 0 to 3, position `i` mapped to
the external id `i + 4`, and every label stored in the Refine Index at exact distance
`10 - label`. -/
def sampleKernels : Kernels Unit Unit Unit Unit Nat :=
  { dim := fun _ => 4
    probe := fun _ _ _ _ _ => [(0, 0), (1, 1), (2, 2), (3, 3)]
    external := fun _ pos => some (pos + 4)
    exact := fun _ _ id => some (10 - id).toNat
    le := fun a b => decide (a ≤ b) }

/-! ## Theorems -/

/-- The fold of `TagChecker.set` is a union with the ids read. -/
theorem foldl_insert_eq_union (l : List idx_t) (t : Finset idx_t) :
    l.foldl (fun acc i => insert i acc) t = t ∪ l.toFinset := by
  induction l generalizing t with
  | nil => simp
  | cons a l ih =>
    simp only [List.foldl_cons, List.toFinset_cons]
    rw [ih]
    ext x
    simp only [Finset.mem_union, Finset.mem_insert]
    tauto

/-- On an array that holds at least `n` ids, `set` succeeds and yields the union. -/
theorem TagChecker.set_eq (c : TagChecker) (n : Int) (ids : List idx_t)
    (h : n ≤ (ids.length : Int)) :
    c.set n ids = some ⟨c.marked ∪ (ids.take n.toNat).toFinset⟩ := by
  simp only [TagChecker.set, if_pos h, foldl_insert_eq_union]

/-- What a completed `DeleteWithIds` call is: the flag is `true`, the checker was present,
the array held at least `n` ids, and only the checker changed, to the union. -/
theorem HakesIndex.DeleteWithIds_eq_some {B M R : Type} {s s2 : HakesIndex B M R} {n : Int}
    {ids : List idx_t} {r : Bool} (h : s.DeleteWithIds n ids = some (r, s2)) :
    ∃ c, s.del_checker_ = some c ∧ n ≤ (ids.length : Int) ∧ r = true ∧
      s2 = { s with del_checker_ := some ⟨c.marked ∪ (ids.take n.toNat).toFinset⟩ } := by
  unfold HakesIndex.DeleteWithIds at h
  cases hc : s.del_checker_ with
  | none => simp [hc] at h
  | some c =>
    by_cases hn : n ≤ (ids.length : Int)
    · simp only [hc, TagChecker.set_eq c n ids hn, Option.some.injEq, Prod.mk.injEq] at h
      exact ⟨c, rfl, hn, h.1.symm, h.2.symm⟩
    · simp [hc, TagChecker.set, hn] at h

/-- A call on an object that holds a checker, with an array of at least `n` ids,
completes. -/
theorem HakesIndex.DeleteWithIds_of_checker {B M R : Type} (s : HakesIndex B M R)
    (c : TagChecker) (n : Int) (ids : List idx_t) (hc : s.del_checker_ = some c)
    (hn : n ≤ (ids.length : Int)) :
    s.DeleteWithIds n ids = some (true,
      { s with del_checker_ := some ⟨c.marked ∪ (ids.take n.toNat).toFinset⟩ }) := by
  simp only [HakesIndex.DeleteWithIds, hc, TagChecker.set_eq c n ids hn]

/-- Further `DeleteWithIds` calls keep the checker and only add to the marked ids. -/
theorem HakesIndex.DeletesTo_marked {B M R : Type} {s t : HakesIndex B M R}
    (h : HakesIndex.DeletesTo s t) (c : TagChecker) (hc : s.del_checker_ = some c) :
    ∃ c2, t.del_checker_ = some c2 ∧ c.marked ⊆ c2.marked := by
  induction h with
  | refl => exact ⟨c, hc, Finset.Subset.refl _⟩
  | step _ hstep ih =>
    obtain ⟨c1, hc1, hsub⟩ := ih
    obtain ⟨c1b, hc1b, _, _, rfl⟩ := HakesIndex.DeleteWithIds_eq_some hstep
    rw [hc1] at hc1b
    cases hc1b
    exact ⟨_, rfl, fun x hx => Finset.mem_union_left _ (hsub hx)⟩

/-- The destructor's `delete` expressions, written out. -/
theorem HakesIndex.destruct_calls {B M R : Type} (s : HakesIndex B M R) :
    s.destruct.1 =
      s.vts_.map (fun vt => (⟨DeleteSite.vts, vt⟩ : DeleteCall))
        ++ s.q_vts_.map (fun vt => (⟨DeleteSite.q_vts, vt⟩ : DeleteCall))
        ++ (if s.use_ivf_sq_ = true then [⟨DeleteSite.cq, s.cq_⟩] else [])
        ++ (if s.q_cq_ ≠ nullptr then
              [⟨DeleteSite.q_cq, s.q_cq_⟩, ⟨DeleteSite.q_quantizer, s.q_quantizer_⟩]
            else []) := by
  unfold HakesIndex.destruct
  by_cases h1 : s.use_ivf_sq_ = true <;> by_cases h2 : s.q_cq_ = nullptr <;> simp [h1, h2]

/-- Under the secondary-pair invariant the destructor destroys exactly the owned
pointers, in order. -/
theorem HakesIndex.released_destruct {B M R : Type} (s : HakesIndex B M R)
    (hp : s.pairInv) : released s.destruct.1 = s.ownedPtrs := by
  rw [HakesIndex.destruct_calls]
  unfold released HakesIndex.ownedPtrs
  unfold HakesIndex.pairInv at hp
  by_cases h1 : s.use_ivf_sq_ = true <;> by_cases h2 : s.q_cq_ = nullptr
  · have h3 := hp.1 h2
    simp [h1, h2, h3, List.filter_append, List.map_map, Function.comp_def, List.filter_cons]
  · have h3 : s.q_quantizer_ ≠ nullptr := fun h => h2 (hp.2 h)
    simp [h1, h2, h3, List.filter_append, List.map_map, Function.comp_def, List.filter_cons]
  · have h3 := hp.1 h2
    simp [h1, h2, h3, List.filter_append, List.map_map, Function.comp_def, List.filter_cons]
  · have h3 : s.q_quantizer_ ≠ nullptr := fun h => h2 (hp.2 h)
    simp [h1, h2, h3, List.filter_append, List.map_map, Function.comp_def, List.filter_cons]

/-! ## DeleteWithIds -/

/-- C1. `DeleteWithIds` never fails for well-formed input: on an index that holds a
Deletion Checker, for `n ≥ 1` and an `ids` array of length `n`, the call completes and
returns `true`. -/
theorem C1_DeleteWithIds_succeeds {B M R : Type} (s : HakesIndex B M R) (n : Int)
    (ids : List idx_t) (hc : s.del_checker_ ≠ none) (_hn : 1 ≤ n)
    (hlen : (ids.length : Int) = n) :
    ∃ s2, s.DeleteWithIds n ids = some (true, s2) := by
  cases hc2 : s.del_checker_ with
  | none => exact absurd hc2 hc
  | some c =>
    exact ⟨_, HakesIndex.DeleteWithIds_of_checker s c n ids hc2 (le_of_eq hlen.symm)⟩

/-- C1 at a concrete input: deleting ids 5 and 9 from the built index. -/
theorem C1_DeleteWithIds_succeeds_witness :
    builtIndex.del_checker_ ≠ none ∧ (1 : Int) ≤ 2 ∧ (([5, 9] : List idx_t).length : Int) = 2 ∧
      ∃ s2, builtIndex.DeleteWithIds 2 [5, 9] = some (true, s2) :=
  ⟨by simp [builtIndex], by decide, by simp,
    C1_DeleteWithIds_succeeds builtIndex 2 [5, 9] (by simp [builtIndex]) (by decide)
      (by simp)⟩

/-- C2. `DeleteWithIds` is a logical deletion: after a completed call every member other
than the Deletion Checker has the value it had before the call. -/
theorem C2_DeleteWithIds_frame {B M R : Type} (s s2 : HakesIndex B M R) (n : Int)
    (ids : List idx_t) (r : Bool) (h : s.DeleteWithIds n ids = some (r, s2)) :
    s2.base_index_ = s.base_index_ ∧ s2.refine_index_ = s.refine_index_ ∧
      s2.mapping_ = s.mapping_ ∧ s2.pa_mapping_ = s.pa_mapping_ ∧
      s2.vts_ = s.vts_ ∧ s2.q_vts_ = s.q_vts_ ∧
      s2.cq_ = s.cq_ ∧ s2.q_cq_ = s.q_cq_ ∧ s2.q_quantizer_ = s.q_quantizer_ ∧
      s2.mode = s.mode ∧ s2.use_ivf_sq_ = s.use_ivf_sq_ ∧
      s2.use_refine_sq_ = s.use_refine_sq_ ∧ s2.has_q_index_ = s.has_q_index_ ∧
      s2.keep_pa_ = s.keep_pa_ ∧ s2.index_path_ = s.index_path_ := by
  obtain ⟨c, _, _, _, rfl⟩ := HakesIndex.DeleteWithIds_eq_some h
  simp

/-- C2 at a concrete input: deleting ids 5 and 9 from the built index changes the
checker and nothing else. -/
theorem C2_DeleteWithIds_frame_witness :
    builtIndex.DeleteWithIds 2 [5, 9]
        = some (true, { builtIndex with del_checker_ := some ⟨{4, 5, 9}⟩ }) ∧
      ({ builtIndex with del_checker_ := some ⟨{4, 5, 9}⟩ } : HakesIndex Unit Unit Unit).vts_
        = builtIndex.vts_ ∧
      ({ builtIndex with del_checker_ := some ⟨{4, 5, 9}⟩ } : HakesIndex Unit Unit Unit).pa_mapping_
        = builtIndex.pa_mapping_ := by
  have h : builtIndex.DeleteWithIds 2 [5, 9]
      = some (true, { builtIndex with del_checker_ := some ⟨{4, 5, 9}⟩ }) := by
    rw [HakesIndex.DeleteWithIds_of_checker builtIndex ⟨{4, 9}⟩ 2 [5, 9] rfl (by decide)]
    have hu : ({4, 9} : Finset idx_t) ∪ (List.take (2 : Int).toNat [5, 9]).toFinset
        = {4, 5, 9} := by decide
    rw [hu]
  have hf := C2_DeleteWithIds_frame builtIndex _ 2 [5, 9] true h
  exact ⟨h, hf.2.2.2.2.1, hf.2.2.2.1⟩

/-- C3. Deletion is idempotent and union-like: on an index that holds a Deletion Checker,
`DeleteWithIds` on the ids `xs` and then on the ids `ys` (which may overlap) leaves the
index, and with it the set of ids marked deleted, exactly as one call on any array `us`
whose ids are those of `xs` and `ys` together; that set is the earlier one with the ids of
`xs` and `ys` added; and repeating the call on `xs` changes nothing. -/
theorem C3_DeleteWithIds_union {B M R : Type} (s : HakesIndex B M R) (c : TagChecker)
    (xs ys us : List idx_t) (hc : s.del_checker_ = some c)
    (hu : ∀ x, x ∈ us ↔ x ∈ xs ∨ x ∈ ys) :
    ∃ s1 s2 : HakesIndex B M R,
      s.DeleteWithIds xs.length xs = some (true, s1) ∧
      s1.DeleteWithIds ys.length ys = some (true, s2) ∧
      s.DeleteWithIds us.length us = some (true, s2) ∧
      s2.del_checker_ = some ⟨c.marked ∪ xs.toFinset ∪ ys.toFinset⟩ ∧
      s1.DeleteWithIds xs.length xs = some (true, s1) := by
  have hx := HakesIndex.DeleteWithIds_of_checker s c xs.length xs hc le_rfl
  have hus := HakesIndex.DeleteWithIds_of_checker s c us.length us hc le_rfl
  simp only [Int.toNat_ofNat, List.take_length] at hx hus
  refine ⟨{ s with del_checker_ := some ⟨c.marked ∪ xs.toFinset⟩ },
    { s with del_checker_ := some ⟨c.marked ∪ xs.toFinset ∪ ys.toFinset⟩ }, hx, ?_, ?_, ?_, ?_⟩
  · have hy := HakesIndex.DeleteWithIds_of_checker
      ({ s with del_checker_ := some ⟨c.marked ∪ xs.toFinset⟩ } : HakesIndex B M R)
      ⟨c.marked ∪ xs.toFinset⟩ ys.length ys rfl le_rfl
    simp only [Int.toNat_ofNat, List.take_length] at hy
    exact hy
  · rw [hus]
    have hset : c.marked ∪ us.toFinset = c.marked ∪ xs.toFinset ∪ ys.toFinset := by
      ext x
      simp only [Finset.mem_union, List.mem_toFinset, hu x]
      tauto
    rw [hset]
  · rfl
  · have hxx := HakesIndex.DeleteWithIds_of_checker
      ({ s with del_checker_ := some ⟨c.marked ∪ xs.toFinset⟩ } : HakesIndex B M R)
      ⟨c.marked ∪ xs.toFinset⟩ xs.length xs rfl le_rfl
    simp only [Int.toNat_ofNat, List.take_length] at hxx
    rw [hxx]
    have hset : c.marked ∪ xs.toFinset ∪ xs.toFinset = c.marked ∪ xs.toFinset := by
      ext x
      simp only [Finset.mem_union, List.mem_toFinset]
      tauto
    rw [hset]

/-- C3 at a concrete input: on the built index (ids 4 and 9 deleted), deleting `[5, 9]`
and then `[9, 6]` is deleting `[6, 5, 9]` once. -/
theorem C3_DeleteWithIds_union_witness :
    ∃ s1 s2 : HakesIndex Unit Unit Unit,
      builtIndex.DeleteWithIds 2 [5, 9] = some (true, s1) ∧
      s1.DeleteWithIds 2 [9, 6] = some (true, s2) ∧
      builtIndex.DeleteWithIds 3 [6, 5, 9] = some (true, s2) ∧
      s2.del_checker_ = some ⟨{4, 9} ∪ ([5, 9] : List idx_t).toFinset
        ∪ ([9, 6] : List idx_t).toFinset⟩ ∧
      s1.DeleteWithIds 2 [5, 9] = some (true, s1) :=
  C3_DeleteWithIds_union builtIndex ⟨{4, 9}⟩ [5, 9] [9, 6] [6, 5, 9] rfl
    (by intro x; simp only [List.mem_cons, List.mem_singleton, List.not_mem_nil]; tauto)

/-- C5, refuted as stated: with `n = 0` the call on a freshly constructed index returns
`true`, not `false` (and leaves the index as it was). -/
theorem C5_nonpositive_n_counterexample :
    (HakesIndex.construct Unit Unit Unit).DeleteWithIds 0 []
        = some (true, HakesIndex.construct Unit Unit Unit) ∧
      ¬ ∃ s2, (HakesIndex.construct Unit Unit Unit).DeleteWithIds 0 [] = some (false, s2) := by
  have h : (HakesIndex.construct Unit Unit Unit).DeleteWithIds 0 []
      = some (true, HakesIndex.construct Unit Unit Unit) := by
    rw [HakesIndex.DeleteWithIds_of_checker (HakesIndex.construct Unit Unit Unit)
      TagChecker.new 0 [] rfl (by decide)]
    rfl
  refine ⟨h, ?_⟩
  rintro ⟨s2, h2⟩
  rw [h] at h2
  simp at h2

/-- C5, amended: `DeleteWithIds` validates nothing; on an index that holds a Deletion
Checker, a call with `n ≤ 0` reads no id, returns `true` and leaves the Deletion Checker
and every other member unchanged. -/
theorem C5_nonpositive_n_noop_success {B M R : Type} (s : HakesIndex B M R) (n : Int)
    (ids : List idx_t) (hc : s.del_checker_ ≠ none) (hn : n ≤ 0) :
    s.DeleteWithIds n ids = some (true, s) := by
  cases hc2 : s.del_checker_ with
  | none => exact absurd hc2 hc
  | some c =>
    have hlen : n ≤ (ids.length : Int) := le_trans hn (Int.ofNat_nonneg _)
    rw [HakesIndex.DeleteWithIds_of_checker s c n ids hc2 hlen]
    have h0 : n.toNat = 0 := Int.toNat_eq_zero.mpr hn
    cases s
    simp only [h0, List.take_zero, List.toFinset_nil, Finset.union_empty] at hc2 ⊢
    rw [hc2]

/-- C5 amended, at a concrete input: `n = -3` on the built index. -/
theorem C5_nonpositive_n_noop_success_witness :
    builtIndex.del_checker_ ≠ none ∧ (-3 : Int) ≤ 0 ∧
      builtIndex.DeleteWithIds (-3) [7] = some (true, builtIndex) :=
  ⟨by simp [builtIndex], by decide,
    C5_nonpositive_n_noop_success builtIndex (-3) [7] (by simp [builtIndex]) (by decide)⟩

/-! ## Search and Rerank after a deletion -/

/-- Every label `Search` returns is unmarked in the Deletion Checker. -/
theorem HakesIndex.Search_unmarked {B M R Q D : Type} (K : Kernels B M R Q D)
    (s : HakesIndex B M R) (c : TagChecker) (hc : s.del_checker_ = some c) (d : Int)
    (query : List Q) (params : HakesSearchParams) (res : List (List (D × idx_t)))
    (h : HakesIndex.Search K s d query params = some res) :
    ∀ row ∈ res, ∀ e ∈ row, e.2 ∉ c.marked := by
  unfold HakesIndex.Search at h
  rw [hc] at h
  cases hb : s.base_index_ with
  | none => simp [hb] at h
  | some b =>
    cases hm : s.mapping_ with
    | none => simp [hb, hm] at h
    | some m =>
      simp only [hb, hm] at h
      by_cases hd : d = K.dim b
      · simp only [hd, ne_eq, not_true_eq_false, if_false, Option.some.injEq] at h
        subst h
        intro row hrow e he
        obtain ⟨q, _, rfl⟩ := List.mem_map.mp hrow
        have hf := List.mem_of_mem_take he
        have hchk := (List.mem_filter.mp hf).2
        simpa [TagChecker.check] using hchk
      · simp [hd] at h

/-- Every label `Rerank` returns is unmarked in the Deletion Checker. -/
theorem HakesIndex.Rerank_unmarked {B M R Q D : Type} (K : Kernels B M R Q D)
    (s : HakesIndex B M R) (c : TagChecker) (hc : s.del_checker_ = some c)
    (query : List Q) (k : Int) (base : List (List (idx_t × D)))
    (res : List (List (D × idx_t)))
    (h : HakesIndex.Rerank K s query k base = some res) :
    ∀ row ∈ res, ∀ e ∈ row, e.2 ∉ c.marked := by
  unfold HakesIndex.Rerank at h
  rw [hc] at h
  cases hr : s.refine_index_ with
  | none => simp [hr] at h
  | some r =>
    simp only [hr] at h
    split at h
    · exact absurd h (by simp)
    · split at h
      · exact absurd h (by simp)
      · simp only [Option.some.injEq] at h
        subst h
        intro row hrow e he
        obtain ⟨qc, _, rfl⟩ := List.mem_map.mp hrow
        have hs := (List.mem_insertionSort _).mp (List.mem_of_mem_take he)
        obtain ⟨a, ha, hae⟩ := List.mem_filterMap.mp hs
        have hchk := (List.mem_filter.mp ha).2
        cases hx : K.exact r qc.1 a.1 with
        | none => simp [hx] at hae
        | some x =>
          simp only [hx, Option.map_some', Option.some.injEq] at hae
          subst hae
          simpa [TagChecker.check] using hchk

/-- C4. Deletion visibility: once `DeleteWithIds(n, ids)` has completed, for every id it
was passed and after any number of further `DeleteWithIds` calls, every label array that
`Search` returns (for every query batch, dimension and search parameter) and every label
array that `Rerank` returns (for every query batch, `k` and candidate lists) is free of
that id. -/
theorem C4_deleted_ids_invisible {B M R Q D : Type} (K : Kernels B M R Q D)
    (s s1 s2 : HakesIndex B M R) (n : Int) (ids : List idx_t) (r : Bool) (id : idx_t)
    (hdel : s.DeleteWithIds n ids = some (r, s1)) (hid : id ∈ ids.take n.toNat)
    (hlater : HakesIndex.DeletesTo s1 s2) :
    (∀ (d : Int) (query : List Q) (params : HakesSearchParams) (res : List (List (D × idx_t))),
        HakesIndex.Search K s2 d query params = some res →
        ∀ row ∈ res, ∀ e ∈ row, e.2 ≠ id) ∧
    (∀ (query : List Q) (k : Int) (base : List (List (idx_t × D)))
        (res : List (List (D × idx_t))),
        HakesIndex.Rerank K s2 query k base = some res →
        ∀ row ∈ res, ∀ e ∈ row, e.2 ≠ id) := by
  obtain ⟨c, _, _, _, rfl⟩ := HakesIndex.DeleteWithIds_eq_some hdel
  obtain ⟨c2, hc2, hsub⟩ := HakesIndex.DeletesTo_marked hlater _ rfl
  have hmem : id ∈ c2.marked :=
    hsub (Finset.mem_union_right _ (List.mem_toFinset.mpr hid))
  constructor
  · intro d query params res h row hrow e he heq
    exact HakesIndex.Search_unmarked K s2 c2 hc2 d query params res h row hrow e he
      (heq ▸ hmem)
  · intro query k base res h row hrow e he heq
    exact HakesIndex.Rerank_unmarked K s2 c2 hc2 query k base res h row hrow e he
      (heq ▸ hmem)

/-- C4 at a concrete input: on the built index (ids 4 and 9 deleted), after deleting id
5 a search that would have returned 5 returns ids 6 and 7, and a rerank of the candidates
5, 6 and 7 returns 7 and 6. -/
theorem C4_deleted_ids_invisible_witness :
    builtIndex.DeleteWithIds 1 [5]
        = some (true, { builtIndex with del_checker_ := some ⟨{4, 5, 9}⟩ }) ∧
      (5 : idx_t) ∈ List.take (1 : Int).toNat [5] ∧
      HakesIndex.Search sampleKernels builtIndex 4 [()] ⟨2, 8, 0, false⟩
        = some [[(1, 5), (2, 6)]] ∧
      HakesIndex.Search sampleKernels
        ({ builtIndex with del_checker_ := some ⟨{4, 5, 9}⟩ } : HakesIndex Unit Unit Unit)
        4 [()] ⟨2, 8, 0, false⟩ = some [[(2, 6), (3, 7)]] ∧
      HakesIndex.Rerank sampleKernels
        ({ builtIndex with del_checker_ := some ⟨{4, 5, 9}⟩ } : HakesIndex Unit Unit Unit)
        [()] 2 [[(5, 0), (6, 1), (7, 2)]] = some [[(3, 7), (4, 6)]] ∧
      (∀ (d : Int) (query : List Unit) (params : HakesSearchParams)
          (res : List (List (Nat × idx_t))),
          HakesIndex.Search sampleKernels
            ({ builtIndex with del_checker_ := some ⟨{4, 5, 9}⟩ } : HakesIndex Unit Unit Unit)
            d query params = some res →
          ∀ row ∈ res, ∀ e ∈ row, e.2 ≠ 5) ∧
      (∀ (query : List Unit) (k : Int) (base : List (List (idx_t × Nat)))
          (res : List (List (Nat × idx_t))),
          HakesIndex.Rerank sampleKernels
            ({ builtIndex with del_checker_ := some ⟨{4, 5, 9}⟩ } : HakesIndex Unit Unit Unit)
            query k base = some res →
          ∀ row ∈ res, ∀ e ∈ row, e.2 ≠ 5) := by
  have h : builtIndex.DeleteWithIds 1 [5]
      = some (true, { builtIndex with del_checker_ := some ⟨{4, 5, 9}⟩ }) := by
    rw [HakesIndex.DeleteWithIds_of_checker builtIndex ⟨{4, 9}⟩ 1 [5] rfl (by decide)]
    have hu : ({4, 9} : Finset idx_t) ∪ (List.take (1 : Int).toNat [5]).toFinset
        = {4, 5, 9} := by decide
    rw [hu]
  have hid : (5 : idx_t) ∈ List.take (1 : Int).toNat [5] := by decide
  have hv := C4_deleted_ids_invisible sampleKernels builtIndex _ _ 1 [5] true 5 h hid
    (HakesIndex.DeletesTo.refl _)
  exact ⟨h, hid, by decide, by decide, by decide, hv.1, hv.2⟩

/-! ## The destructor -/

/-- C6. Conditional ownership of the primary coarse quantizer: the destructor evaluates
`delete cq_` if and only if `use_ivf_sq_` is true, and then once, on the value of `cq_`;
when `use_ivf_sq_` is false no `delete` expression of the destructor names `cq_`, whatever
address `cq_` holds, and the object at that address is left alone unless another owned
member holds the same address. -/
theorem C6_cq_released_iff_scalar_quantized {B M R : Type} (s : HakesIndex B M R) :
    ((∃ c ∈ s.destruct.1, c.site = DeleteSite.cq) ↔ s.use_ivf_sq_ = true) ∧
      s.destruct.1.filter (fun c => decide (c.site = DeleteSite.cq))
        = (if s.use_ivf_sq_ = true then [⟨DeleteSite.cq, s.cq_⟩] else []) ∧
      (s.use_ivf_sq_ = false →
        s.cq_ ∉ s.vts_ ++ s.q_vts_ ++ [s.q_cq_, s.q_quantizer_] →
        s.cq_ ∉ released s.destruct.1) := by
  have hf : s.destruct.1.filter (fun c => decide (c.site = DeleteSite.cq))
      = (if s.use_ivf_sq_ = true then [⟨DeleteSite.cq, s.cq_⟩] else []) := by
    rw [HakesIndex.destruct_calls]
    by_cases h1 : s.use_ivf_sq_ = true <;> by_cases h2 : s.q_cq_ = nullptr <;>
      simp [h1, h2, List.filter_append, List.filter_map, Function.comp_def, List.filter_cons]
  refine ⟨?_, hf, ?_⟩
  · constructor
    · rintro ⟨c, hc, hsite⟩
      have hmem : c ∈ s.destruct.1.filter (fun c => decide (c.site = DeleteSite.cq)) :=
        List.mem_filter.mpr ⟨hc, by simpa using hsite⟩
      rw [hf] at hmem
      by_cases h1 : s.use_ivf_sq_ = true
      · exact h1
      · simp [h1] at hmem
    · intro h1
      have hmem : (⟨DeleteSite.cq, s.cq_⟩ : DeleteCall)
          ∈ s.destruct.1.filter (fun c => decide (c.site = DeleteSite.cq)) := by
        rw [hf]
        simp [h1]
      exact ⟨_, (List.mem_filter.mp hmem).1, rfl⟩
  · rw [HakesIndex.destruct_calls]
    intro h1 hnot
    simp only [List.mem_append, List.mem_cons, List.mem_singleton, List.not_mem_nil,
      or_false, not_or] at hnot
    obtain ⟨⟨hv, hq⟩, hc, hz⟩ := hnot
    unfold released
    by_cases h2 : s.q_cq_ = nullptr
    · simp [h1, h2, List.mem_filter, hv, hq]
    · simp [h1, h2, List.mem_filter, hv, hq, hc, hz]

/-- C6 at concrete inputs: the built index owns its primary coarse quantizer (address
31), which is destroyed; the same index with `use_ivf_sq_` off does not destroy it. -/
theorem C6_cq_released_iff_scalar_quantized_witness :
    builtIndex.destruct.1.filter (fun c => decide (c.site = DeleteSite.cq))
        = [⟨DeleteSite.cq, 31⟩] ∧
      (31 : Ptr) ∈ released builtIndex.destruct.1 ∧
      (31 : Ptr) ∉ released
        ({ builtIndex with use_ivf_sq_ := false } : HakesIndex Unit Unit Unit).destruct.1 :=
  ⟨(C6_cq_released_iff_scalar_quantized builtIndex).2.1, by decide,
    (C6_cq_released_iff_scalar_quantized
      ({ builtIndex with use_ivf_sq_ := false } : HakesIndex Unit Unit Unit)).2.2 rfl
      (by decide)⟩

/-- C7, refuted as stated for every index state: with `q_cq_` null and `q_quantizer_` at
address 7, the owned non-null pointer 7 is left unreleased; with the base transform chain
holding address 5 twice, the owned pointer 5 is released twice. -/
theorem C7_exactly_once_counterexample :
    ((7 : Ptr) ∈ ({ HakesIndex.construct Unit Unit Unit with q_quantizer_ := 7 } :
          HakesIndex Unit Unit Unit).ownedPtrs ∧
      (released ({ HakesIndex.construct Unit Unit Unit with q_quantizer_ := 7 } :
          HakesIndex Unit Unit Unit).destruct.1).count 7 = 0) ∧
    ((5 : Ptr) ∈ ({ HakesIndex.construct Unit Unit Unit with vts_ := [5, 5] } :
          HakesIndex Unit Unit Unit).ownedPtrs ∧
      (released ({ HakesIndex.construct Unit Unit Unit with vts_ := [5, 5] } :
          HakesIndex Unit Unit Unit).destruct.1).count 5 = 2) := by
  decide

/-- C7, amended: for every index state that satisfies the secondary-pair invariant and
whose owned non-null pointers are pairwise distinct, the destructor releases every owned
pointer exactly once: each owned pointer is destroyed once, no address is destroyed
twice, and nothing but an owned pointer is destroyed. -/
theorem C7_exactly_once_release {B M R : Type} (s : HakesIndex B M R) (hp : s.pairInv)
    (hnd : s.ownedPtrs.Nodup) :
    (∀ p ∈ s.ownedPtrs, (released s.destruct.1).count p = 1) ∧
      (∀ p, (released s.destruct.1).count p ≤ 1) ∧
      (∀ p ∈ released s.destruct.1, p ∈ s.ownedPtrs) := by
  rw [HakesIndex.released_destruct s hp]
  exact ⟨fun p hmem => List.count_eq_one_of_mem hnd hmem,
    List.nodup_iff_count_le_one.mp hnd, fun p hmem => hmem⟩

/-- C7 amended, at a concrete input: the built index, whose six owned pointers are
distinct. -/
theorem C7_exactly_once_release_witness :
    builtIndex.pairInv ∧ builtIndex.ownedPtrs.Nodup ∧
      builtIndex.ownedPtrs = [11, 12, 21, 31, 41, 42] ∧
      (∀ p ∈ builtIndex.ownedPtrs, (released builtIndex.destruct.1).count p = 1) ∧
      (∀ p, (released builtIndex.destruct.1).count p ≤ 1) ∧
      (∀ p ∈ released builtIndex.destruct.1, p ∈ builtIndex.ownedPtrs) :=
  ⟨by decide, by decide, by decide,
    C7_exactly_once_release builtIndex (by decide) (by decide)⟩

/-! ## Construction and the secondary pair -/

/-- `DeleteWithIds` preserves the secondary-pair invariant. -/
theorem HakesIndex.pairInv_DeleteWithIds {B M R : Type} {s s2 : HakesIndex B M R} {n : Int}
    {ids : List idx_t} {r : Bool} (hp : s.pairInv)
    (h : s.DeleteWithIds n ids = some (r, s2)) : s2.pairInv := by
  obtain ⟨c, _, _, _, rfl⟩ := HakesIndex.DeleteWithIds_eq_some h
  exact hp

/-- The secondary-pair invariant on the member functions whose bodies are in the header:
the constructor leaves `q_cq_` and `q_quantizer_` both null; from every state that
satisfies the invariant, with the pair present or absent, `DeleteWithIds` leads to a state
that satisfies it; and so does the destructor body, which clears the pair together. The
member functions that load or replace the pair are only declared in the header, so
nothing is said about the states they produce. -/
theorem HakesIndex.pairInv_construct_DeleteWithIds_destruct (B M R : Type) :
    ((HakesIndex.construct B M R).q_cq_ = nullptr ∧
        (HakesIndex.construct B M R).q_quantizer_ = nullptr) ∧
      (∀ (s s2 : HakesIndex B M R) (n : Int) (ids : List idx_t) (r : Bool),
        s.pairInv → s.DeleteWithIds n ids = some (r, s2) → s2.pairInv) ∧
      (∀ s : HakesIndex B M R, s.pairInv → s.destruct.2.pairInv) := by
  refine ⟨⟨rfl, rfl⟩, ?_, ?_⟩
  · intro s s2 n ids r hp h
    exact HakesIndex.pairInv_DeleteWithIds hp h
  · intro s hp
    unfold HakesIndex.pairInv at hp ⊢
    unfold HakesIndex.destruct
    by_cases h1 : s.use_ivf_sq_ = true <;> by_cases h2 : s.q_cq_ = nullptr <;>
      simp [h1, h2, hp.1]

/-- C9. Entities are created empty at construction: after the constructor both transform
chains and the Position-Assignment Map are empty, `cq_`, `q_cq_` and `q_quantizer_` are
null, the Approximate Index, Refine Index and Id Mapping handles are empty, `mode` is 0,
every flag is false, the path is empty, and the Deletion Checker exists with no id marked
deleted. -/
theorem C9_constructed_empty (B M R : Type) :
    (HakesIndex.construct B M R).vts_ = [] ∧ (HakesIndex.construct B M R).q_vts_ = [] ∧
      (HakesIndex.construct B M R).pa_mapping_ = [] ∧
      (HakesIndex.construct B M R).cq_ = nullptr ∧
      (HakesIndex.construct B M R).q_cq_ = nullptr ∧
      (HakesIndex.construct B M R).q_quantizer_ = nullptr ∧
      (HakesIndex.construct B M R).base_index_ = none ∧
      (HakesIndex.construct B M R).refine_index_ = none ∧
      (HakesIndex.construct B M R).mapping_ = none ∧
      (HakesIndex.construct B M R).mode = 0 ∧
      (HakesIndex.construct B M R).use_ivf_sq_ = false ∧
      (HakesIndex.construct B M R).use_refine_sq_ = false ∧
      (HakesIndex.construct B M R).has_q_index_ = false ∧
      (HakesIndex.construct B M R).keep_pa_ = false ∧
      (HakesIndex.construct B M R).index_path_ = "" ∧
      (∃ c, (HakesIndex.construct B M R).del_checker_ = some c ∧ c.marked = ∅ ∧
        ∀ id, c.check id = false) := by
  refine ⟨rfl, rfl, rfl, rfl, rfl, rfl, rfl, rfl, rfl, rfl, rfl, rfl, rfl, rfl, rfl,
    TagChecker.new, rfl, rfl, ?_⟩
  intro id
  simp [TagChecker.check, TagChecker.new]

/-! ## The timing call -/

/-- For a reading with non-negative fields, the printed argument is the microsecond count
modulo `2^64`. -/
theorem ocall_print_time_arg_eq (t : timeval) (hs : 0 ≤ t.tv_sec) (hu0 : 0 ≤ t.tv_usec) :
    (ocall_print_time_arg t : Int) = (t.tv_sec * 1000000 + t.tv_usec) % 2 ^ 64 := by
  unfold ocall_print_time_arg toULL
  obtain ⟨a, ha⟩ := Int.eq_ofNat_of_zero_le hs
  obtain ⟨b, hb⟩ := Int.eq_ofNat_of_zero_le hu0
  rw [ha, hb]
  norm_num
  omega

/-- C10. `ocall_print_time` prints the time in microseconds since the epoch: for a clock
reading with `tv_sec ≥ 0` and `0 ≤ tv_usec < 1000000`, the text printed is
`"timing since start: "`, then the decimal form of `tv_sec * 1000000 + tv_usec` reduced
modulo `2^64`, then a newline; the number is the exact `tv_sec * 1000000 + tv_usec`
whenever that is below `2^64`; and it is strictly larger for a strictly later reading in
that range. -/
theorem C10_print_time_microseconds (t : timeval) (hs : 0 ≤ t.tv_sec)
    (hu0 : 0 ≤ t.tv_usec) (hu1 : t.tv_usec < 1000000) :
    ocall_print_time t = "timing since start: "
        ++ Nat.repr ((t.tv_sec * 1000000 + t.tv_usec) % 2 ^ 64).toNat ++ "\n" ∧
      (ocall_print_time_arg t : Int) = (t.tv_sec * 1000000 + t.tv_usec) % 2 ^ 64 ∧
      (t.tv_sec * 1000000 + t.tv_usec < 2 ^ 64 →
        (ocall_print_time_arg t : Int) = t.tv_sec * 1000000 + t.tv_usec) ∧
      (∀ t2 : timeval, 0 ≤ t2.tv_usec → t2.tv_usec < 1000000 →
        t2.tv_sec * 1000000 + t2.tv_usec < 2 ^ 64 → t.later t2 →
        ocall_print_time_arg t < ocall_print_time_arg t2) := by
  have harg := ocall_print_time_arg_eq t hs hu0
  have hexact : t.tv_sec * 1000000 + t.tv_usec < 2 ^ 64 →
      (ocall_print_time_arg t : Int) = t.tv_sec * 1000000 + t.tv_usec := by
    intro hlt
    rw [harg]
    exact Int.emod_eq_of_lt (by positivity) hlt
  refine ⟨?_, harg, hexact, ?_⟩
  · unfold ocall_print_time
    rw [← harg, Int.toNat_ofNat]
  · intro t2 h20 h21 h2lt hlater
    have hs2 : 0 ≤ t2.tv_sec := by
      rcases hlater with h | ⟨h, _⟩
      · exact le_trans hs (le_of_lt h)
      · exact h ▸ hs
    have hlt : t.tv_sec * 1000000 + t.tv_usec < t2.tv_sec * 1000000 + t2.tv_usec := by
      rcases hlater with h | ⟨h, hu⟩
      · omega
      · omega
    have h2 := ocall_print_time_arg_eq t2 hs2 h20
    rw [Int.emod_eq_of_lt (by positivity) h2lt] at h2
    have h1 := hexact (lt_trans hlt h2lt)
    have : (ocall_print_time_arg t : Int) < (ocall_print_time_arg t2 : Int) := by
      rw [h1, h2]
      exact hlt
    exact_mod_cast this

/-- C10 at concrete inputs: the reading 1700000000 s, 123456 µs prints
1700000000123456, less than what the reading one microsecond later prints; the largest
`time_t` reading wraps around. -/
theorem C10_print_time_microseconds_witness :
    (0 : Int) ≤ 1700000000 ∧ (0 : Int) ≤ 123456 ∧ (123456 : Int) < 1000000 ∧
      ocall_print_time_arg ⟨1700000000, 123456⟩ = 1700000000123456 ∧
      ocall_print_time ⟨1700000000, 123456⟩ = "timing since start: "
        ++ Nat.repr (((1700000000 : Int) * 1000000 + 123456) % 2 ^ 64).toNat ++ "\n" ∧
      ocall_print_time_arg ⟨1700000000, 123456⟩ < ocall_print_time_arg ⟨1700000000, 123457⟩ ∧
      ocall_print_time_arg ⟨9223372036854775807, 999999⟩ = 18446744073709551615 := by
  have h := C10_print_time_microseconds ⟨1700000000, 123456⟩ (by decide) (by decide)
    (by decide)
  refine ⟨by decide, by decide, by decide, by decide, h.1, ?_, by decide⟩
  exact h.2.2.2 ⟨1700000000, 123457⟩ (by decide) (by decide) (by decide)
    (Or.inr ⟨rfl, by decide⟩)
